import Mathlib

/-!
Verification of the gossip-peer membership core (src/agent.rs) against its
natural-language specification.  The Rust code is shallowly embedded: machine
integers (u16, u32, u64) become Nat, with wraparound written out explicitly
(mod 2 ^ 64) at the places the Rust code can overflow or underflow in release
mode; fallible operations return Option; the panics of the bytes crate and of
the assert in Message::bytes are modelled as explicit outcomes.
-/

set_option maxRecDepth 4000

namespace GossipPeer

/-- Network endpoint identifier (struct Addr in src/agent.rs): host is a u32,
port is a u16. -/
structure Addr where
  host : Nat
  port : Nat
  deriving DecidableEq

/-- Identity exchanged on the wire (struct Info in src/agent.rs): an address
paired with a u64 heartbeat counter. -/
structure Info where
  addr : Addr
  beat : Nat
  deriving DecidableEq

/-- Peer bookkeeping record (struct Record in src/agent.rs): identity plus
last-contact time and the down timestamp (0 = alive). -/
structure Record where
  info : Info
  time : Nat
  down : Nat
  deriving DecidableEq

/-- Record::new in src/agent.rs: fresh record with down = 0. -/
def Record.new (addr : Addr) (time beat : Nat) : Record :=
  { info := { addr := addr, beat := beat }, time := time, down := 0 }

/-- Record::is_down in src/agent.rs: self.down > 0. -/
def Record.is_down (r : Record) : Bool :=
  decide (0 < r.down)

/-- Membership-change events (enum Event in src/agent.rs). -/
inductive Event where
  | append (r : Record)
  | remove (r : Record)
  deriving DecidableEq

/-- Wire messages (enum Message in src/agent.rs): a single-identity Ping
announcement or a batch List. -/
inductive Message where
  | ping (i : Info)
  | list (l : List Info)
  deriving DecidableEq

/-- The identities carried by a message: one for Ping, all entries for List. -/
def Message.infos : Message → List Info
  | .ping i => [i]
  | .list l => l

/-- The membership agent (struct Agent in src/agent.rs).  The Rust field
named this (the agent's own record) is called self here because this is a
reserved word in Lean. -/
structure Agent where
  self : Record
  seeds : List Addr
  peers : List Record
  ping_cutoff : Nat
  fail_cutoff : Nat
  deriving DecidableEq

/-- Agent::new in src/agent.rs: empty peer table. -/
def Agent.new (self : Record) (seeds : List Addr) (ping_cutoff fail_cutoff : Nat) : Agent :=
  { self := self, seeds := seeds, peers := [], ping_cutoff := ping_cutoff,
    fail_cutoff := fail_cutoff }

/-- Agent::is_ready in src/agent.rs: the peer table is non-empty. -/
def Agent.is_ready (a : Agent) : Bool :=
  !a.peers.isEmpty

/-- Agent::tick in src/agent.rs (advance-clock): self.info.beat += 1 (u64,
wrapping in release mode), self.time = time. -/
def Agent.tick (a : Agent) (time : Nat) : Agent :=
  { a with self := { a.self with
      info := { a.self.info with beat := (a.self.info.beat + 1) % 2 ^ 64 },
      time := time } }

/-- Agent::ping in src/agent.rs (discover): every seed address not currently
present as a non-down entry of the peer table. -/
def Agent.ping (a : Agent) : List Addr :=
  a.seeds.filter fun s =>
    (a.peers.filter fun p => !p.is_down).all fun p => decide (p.info.addr ≠ s)

/-- Wrapping u64 subtraction: in release mode the Rust expression
time - cutoff on u64 wraps around 2 ^ 64 when cutoff > time. -/
def sub64 (a b : Nat) : Nat :=
  (a + 2 ^ 64 - b) % 2 ^ 64

/-- One record's step of Agent::detect in src/agent.rs: a record that is not
down and whose last-contact time is at or below the wrapped cutoff is marked
down (down = now) and yields a Remove event carrying the updated record. -/
def detectStep (cut now : Nat) (r : Record) : Record × Option Event :=
  if !r.is_down && decide (r.time ≤ sub64 now cut) then
    ({ r with down := now }, some (Event.remove { r with down := now }))
  else
    (r, none)

/-- Agent::detect in src/agent.rs: iterate the peer table once, marking each
timed-out live record down and collecting one Remove event per marked record.
The total cutoff ping_cutoff + fail_cutoff is a u64 addition (wrapping). -/
def Agent.detect (a : Agent) (now : Nat) : Agent × List Event :=
  let cut := (a.ping_cutoff + a.fail_cutoff) % 2 ^ 64
  let steps := a.peers.map (detectStep cut now)
  ({ a with peers := steps.map Prod.fst }, steps.filterMap Prod.snd)

/-- The in-place update of Agent::touch on the peer list: find the first
record with the given address; if info.beat > record.beat or info.beat == 0,
overwrite beat, time and clear down, otherwise leave the record alone.
Returns none when no record has the address (Agent::get_mut returned None). -/
def touchList (info : Info) (time : Nat) : List Record → Option (List Record)
  | [] => none
  | r :: rs =>
    if r.info.addr = info.addr then
      if info.beat > r.info.beat ∨ info.beat = 0 then
        some ({ info := { r.info with beat := info.beat }, time := time, down := 0 } :: rs)
      else
        some (r :: rs)
    else
      (touchList info time rs).map fun ps => r :: ps

/-- Agent::touch in src/agent.rs: update a tracked record in place (no event),
or append a fresh record (down = 0) and produce an Append event. -/
def Agent.touch (a : Agent) (info : Info) (time : Nat) : Agent × Option Event :=
  match touchList info time a.peers with
  | some ps => ({ a with peers := ps }, none)
  | none =>
    let r : Record := { info := info, time := time, down := 0 }
    ({ a with peers := a.peers ++ [r] }, some (Event.append r))

/-- One identity's step inside Agent::accept: apply touch and append its
event, if any, to the accumulated event list. -/
def touchAcc (time : Nat) (acc : Agent × List Event) (i : Info) : Agent × List Event :=
  match acc.1.touch i time with
  | (a2, some e) => (a2, acc.2 ++ [e])
  | (a2, none) => (a2, acc.2)

/-- Agent::accept in src/agent.rs (merge-inbound): run detect first, then
touch every identity carried by the message, accumulating events in order. -/
def Agent.accept (a : Agent) (m : Message) (time : Nat) : Agent × List Event :=
  match m with
  | .ping i => touchAcc time (a.detect time) i
  | .list l => l.foldl (touchAcc time) (a.detect time)

/-- Agent::gossip in src/agent.rs (build-gossip-payload): the fresh view is
the non-down peers with time > now - ping_cutoff (wrapped u64 subtraction)
with the agent's own record pushed at the end; each fresh peer receives a
List of the fresh view's identities minus every identity at its own
address. -/
def Agent.gossip (a : Agent) (now : Nat) : List (Addr × Message) :=
  let fresh :=
    (a.peers.filter fun r => !r.is_down && decide (sub64 now a.ping_cutoff < r.time)) ++ [a.self]
  (a.peers.filter fun r => !r.is_down && decide (sub64 now a.ping_cutoff < r.time)).map
    fun r =>
      (r.info.addr,
        Message.list ((fresh.map Record.info).filter fun i => decide (i.addr ≠ r.info.addr)))

/-- Big-endian byte encoding on w bytes, as produced by put_u32 / put_u16 /
put_u64 of the bytes crate (high bits beyond 8 * w are discarded, matching
the as-cast in list.len() as u32). -/
def beBytes : Nat → Nat → List Nat
  | 0, _ => []
  | w + 1, n => beBytes w (n / 256) ++ [n % 256]

/-- Big-endian byte decoding, as performed by get_u32 / get_u16 / get_u64. -/
def fromBE (bs : List Nat) : Nat :=
  bs.foldl (fun acc b => acc * 256 + b) 0

/-- The 14-byte wire layout of an identity (Message::bytes in src/agent.rs):
host u32 BE, port u16 BE, beat u64 BE. -/
def Info.bytes (i : Info) : List Nat :=
  beBytes 4 i.addr.host ++ beBytes 2 i.addr.port ++ beBytes 8 i.beat

/-- The for-loop of the List branch of Message::bytes: the 14-byte records
in order. -/
def encodeInfos : List Info → List Nat
  | [] => []
  | i :: is => Info.bytes i ++ encodeInfos is

/-- The buffer built by Message::bytes in src/agent.rs, before the final
assert: kind tag (0 = Ping, 1 = List), then the payload. -/
def Message.bytesRaw : Message → List Nat
  | .ping i => 0 :: Info.bytes i
  | .list l => 1 :: (beBytes 4 (l.length % 2 ^ 32) ++ encodeInfos l)

/-- Message::bytes in src/agent.rs ends with assert!(vec.len() < 128); none
models that assert firing, which aborts the Rust process. -/
def Message.bytes (m : Message) : Option (List Nat) :=
  if m.bytesRaw.length < 128 then some m.bytesRaw else none

/-- Reading exactly n bytes from the front of a buffer; none models the
panic of the bytes crate Buf getters when fewer than n bytes remain. -/
def takeExact : Nat → List Nat → Option (List Nat × List Nat)
  | 0, buf => some ([], buf)
  | _ + 1, [] => none
  | n + 1, b :: buf => (takeExact n buf).map fun p => (b :: p.1, p.2)

/-- get_u32 / get_u16 / get_u64 for one identity record inside
Message::parse; none models the panic on a buffer with fewer than 14
remaining bytes. -/
def readInfo (buf : List Nat) : Option (Info × List Nat) :=
  match takeExact 4 buf with
  | none => none
  | some (hb, buf) =>
    match takeExact 2 buf with
    | none => none
    | some (pb, buf) =>
      match takeExact 8 buf with
      | none => none
      | some (bb, buf) =>
        some ({ addr := { host := fromBE hb, port := fromBE pb }, beat := fromBE bb }, buf)

/-- The count-driven loop of the List branch of Message::parse. -/
def readInfos : Nat → List Nat → Option (List Info × List Nat)
  | 0, buf => some ([], buf)
  | n + 1, buf =>
    match readInfo buf with
    | none => none
    | some (i, buf) => (readInfos n buf).map fun p => (i :: p.1, p.2)

/-- Outcome of Message::parse: ok is Some(message), unknownTag is the None
the Rust code returns for an unrecognized kind byte, and panicked is the
abort of the bytes crate getters on a truncated buffer. -/
inductive ParseResult where
  | ok (m : Message)
  | unknownTag
  | panicked
  deriving DecidableEq

/-- Message::parse in src/agent.rs: kind tag 0 reads one identity, kind tag
1 reads a u32 count and that many identities, any other tag yields None;
reading past the end of the buffer panics (bytes crate). -/
def Message.parse (buf : List Nat) : ParseResult :=
  match buf with
  | [] => .panicked
  | code :: rest =>
    if code = 0 then
      match readInfo rest with
      | none => .panicked
      | some (i, _) => .ok (.ping i)
    else if code = 1 then
      match takeExact 4 rest with
      | none => .panicked
      | some (cb, rest) =>
        match readInfos (fromBE cb) rest with
        | none => .panicked
        | some (is, _) => .ok (.list is)
    else
      .unknownTag

/-- Field bounds guaranteed by the Rust types u32, u16, u64. -/
def Info.WF (i : Info) : Prop :=
  i.addr.host < 2 ^ 32 ∧ i.addr.port < 2 ^ 16 ∧ i.beat < 2 ^ 64

instance (i : Info) : Decidable i.WF := by
  unfold Info.WF
  exact inferInstance

/-- Field bounds guaranteed by the Rust types, for every identity carried. -/
def Message.WF (m : Message) : Prop :=
  ∀ i ∈ m.infos, i.WF

instance (m : Message) : Decidable m.WF := by
  unfold Message.WF
  exact inferInstance

/-- States reachable by the core operations from a freshly constructed
agent: Agent::new, then any sequence of tick, accept (with any message) and
detect.  Agent::ping and Agent::gossip read the state without changing it
(Agent::gossip clones the peer table), so they contribute no transition. -/
inductive Reach : Agent → Prop where
  | init (self : Record) (seeds : List Addr) (pc fc : Nat) :
      Reach (Agent.new self seeds pc fc)
  | tick (a : Agent) (t : Nat) : Reach a → Reach (a.tick t)
  | accept (a : Agent) (m : Message) (t : Nat) : Reach a → Reach (a.accept m t).1
  | detect (a : Agent) (t : Nat) : Reach a → Reach (a.detect t).1

/-- Reachability restricted to runs in which no inbound message ever carries
an identity bearing the agent's own address. -/
inductive ReachSafe : Agent → Prop where
  | init (self : Record) (seeds : List Addr) (pc fc : Nat) :
      ReachSafe (Agent.new self seeds pc fc)
  | tick (a : Agent) (t : Nat) : ReachSafe a → ReachSafe (a.tick t)
  | accept (a : Agent) (m : Message) (t : Nat) : ReachSafe a →
      (∀ i ∈ m.infos, i.addr ≠ a.self.info.addr) → ReachSafe (a.accept m t).1
  | detect (a : Agent) (t : Nat) : ReachSafe a → ReachSafe (a.detect t).1

/-- Modelled from the spec, for comparison with Agent::detect: the cutoff
test record.time <= now - (pingCutoff + failCutoff) read as exact integer
arithmetic instead of wrapping u64 arithmetic. -/
def detectStepInt (cut now : Nat) (r : Record) : Record × Option Event :=
  if !r.is_down && decide ((r.time : Int) ≤ (now : Int) - (cut : Int)) then
    ({ r with down := now }, some (Event.remove { r with down := now }))
  else
    (r, none)

/-- Modelled from the spec, for comparison with Agent::detect: detection
with the exact-integer cutoff test. -/
def Agent.detectInt (a : Agent) (now : Nat) : Agent × List Event :=
  let steps := a.peers.map (detectStepInt (a.ping_cutoff + a.fail_cutoff) now)
  ({ a with peers := steps.map Prod.fst }, steps.filterMap Prod.snd)

/-- Modelled from the spec, for comparison with Agent::gossip: the freshness
test record.time > now - pingCutoff read as exact integer arithmetic. -/
def Agent.gossipInt (a : Agent) (now : Nat) : List (Addr × Message) :=
  let fresh :=
    (a.peers.filter fun r =>
        !r.is_down && decide ((now : Int) - (a.ping_cutoff : Int) < (r.time : Int))) ++ [a.self]
  (a.peers.filter fun r =>
      !r.is_down && decide ((now : Int) - (a.ping_cutoff : Int) < (r.time : Int))).map
    fun r =>
      (r.info.addr,
        Message.list ((fresh.map Record.info).filter fun i => decide (i.addr ≠ r.info.addr)))

/-- Message::patch in src/agent.rs: for a Ping the identity's host is
replaced unconditionally with the observed host; for a List only entries
whose host is the sentinel 0 are patched. -/
def Message.patch (m : Message) (ip : Addr) : Message :=
  match m with
  | .ping info => .ping { info with addr := { info.addr with host := ip.host } }
  | .list l =>
    .list (l.map fun info =>
      if info.addr.host = 0 then { info with addr := { info.addr with host := ip.host } }
      else info)

/-- Concrete address used by the evaluation theorems below. -/
def addrW (i : Nat) : Addr :=
  { host := i, port := i }

/-- Concrete identity used by the evaluation theorems below. -/
def infoW (i b : Nat) : Info :=
  { addr := addrW i, beat := b }

/-- Concrete record used by the evaluation theorems below. -/
def recW (i t b : Nat) : Record :=
  { info := infoW i b, time := t, down := 0 }

/-- Concrete agent (self at address 1, one live peer at address 2, contacted
at time 100 with beat 5) used by the evaluation theorems below. -/
def agentW : Agent :=
  { self := recW 1 90 3, seeds := [], peers := [recW 2 100 5],
    ping_cutoff := 10, fail_cutoff := 20 }

/-- Concrete agent whose clock is still below the cutoffs, used to exhibit
the u64 underflow of the cutoff subtractions. -/
def agentU : Agent :=
  { self := recW 1 5 0, seeds := [], peers := [recW 2 5 3],
    ping_cutoff := 10, fail_cutoff := 10 }

/-! Helper lemmas. -/

theorem sub64_of_le {a b : Nat} (hb : b ≤ a) (ha : a < 2 ^ 64) : sub64 a b = a - b := by
  unfold sub64
  have h1 : a + 2 ^ 64 - b = (a - b) + 2 ^ 64 := by omega
  have h2 : a - b < 2 ^ 64 := by omega
  rw [h1, Nat.add_mod_right, Nat.mod_eq_of_lt h2]

theorem filterMap_ite {α β : Type} (c : α → Bool) (f : α → β) (l : List α) :
    (l.filterMap fun x => if c x then some (f x) else none) = (l.filter c).map f := by
  induction l with
  | nil => rfl
  | cons x xs ih =>
    by_cases h : c x <;> simp [List.filterMap_cons, List.filter_cons, h, ih]

theorem pairwise_addr_eq {l : List Record}
    (h : l.Pairwise fun r s => r.info.addr ≠ s.info.addr)
    {r s : Record} (hr : r ∈ l) (hs : s ∈ l) (he : r.info.addr = s.info.addr) : r = s := by
  induction l with
  | nil => cases hr
  | cons x xs ih =>
    rcases List.pairwise_cons.mp h with ⟨hx, hxs⟩
    rcases List.mem_cons.mp hr with rfl | hr' <;> rcases List.mem_cons.mp hs with rfl | hs'
    · rfl
    · exact absurd he (hx s hs')
    · exact absurd he.symm (hx r hr')
    · exact ih hxs hr' hs'

theorem touchList_none_iff {i : Info} {t : Nat} {ps : List Record} :
    touchList i t ps = none ↔ ∀ r ∈ ps, r.info.addr ≠ i.addr := by
  induction ps with
  | nil => simp [touchList]
  | cons r rs ih =>
    unfold touchList
    split_ifs with h1 h2
    · constructor
      · intro hc
        cases hc
      · intro hall
        exact absurd h1 (hall r (List.mem_cons_self r rs))
    · constructor
      · intro hc
        cases hc
      · intro hall
        exact absurd h1 (hall r (List.mem_cons_self r rs))
    · rw [Option.map_eq_none', ih, List.forall_mem_cons]
      simp [h1]

theorem touchList_found {i : Info} {t : Nat} (p1 : List Record) (r : Record) (p2 : List Record)
    (h1 : ∀ x ∈ p1, x.info.addr ≠ i.addr) (hr : r.info.addr = i.addr) :
    touchList i t (p1 ++ r :: p2) =
      some (p1 ++
        (if i.beat > r.info.beat ∨ i.beat = 0 then
          { info := { r.info with beat := i.beat }, time := t, down := 0 }
        else r) :: p2) := by
  induction p1 with
  | nil =>
    simp only [List.nil_append]
    unfold touchList
    rw [if_pos hr]
    split <;> rfl
  | cons x xs ih =>
    have hx : x.info.addr ≠ i.addr := h1 x (List.mem_cons_self x xs)
    simp only [List.cons_append]
    unfold touchList
    rw [if_neg hx, ih fun y hy => h1 y (List.mem_cons_of_mem x hy)]
    rfl

theorem exists_first_match {i : Info} {ps : List Record}
    (h : ¬ ∀ r ∈ ps, r.info.addr ≠ i.addr) :
    ∃ p1 r p2, ps = p1 ++ r :: p2 ∧ (∀ x ∈ p1, x.info.addr ≠ i.addr) ∧
      r.info.addr = i.addr := by
  induction ps with
  | nil => exact absurd (by simp) h
  | cons x xs ih =>
    by_cases hx : x.info.addr = i.addr
    · exact ⟨[], x, xs, rfl, by simp, hx⟩
    · have hxs : ¬ ∀ r ∈ xs, r.info.addr ≠ i.addr := by
        intro hall
        exact h fun r hr => by
          rcases List.mem_cons.mp hr with rfl | hr'
          · exact hx
          · exact hall r hr'
      rcases ih hxs with ⟨p1, r, p2, heq, hp1, hr⟩
      exact ⟨x :: p1, r, p2, by rw [heq]; rfl,
        fun y hy => by
          rcases List.mem_cons.mp hy with rfl | hy'
          · exact hx
          · exact hp1 y hy', hr⟩

theorem touchList_some_addrs {i : Info} {t : Nat} {ps qs : List Record}
    (h : touchList i t ps = some qs) :
    qs.map (fun r => r.info.addr) = ps.map (fun r => r.info.addr) := by
  induction ps generalizing qs with
  | nil => cases h
  | cons r rs ih =>
    unfold touchList at h
    by_cases hr : r.info.addr = i.addr
    · rw [if_pos hr] at h
      split at h <;> cases h <;> simp [hr]
    · rw [if_neg hr] at h
      cases hh : touchList i t rs with
      | none => rw [hh] at h; cases h
      | some qs' =>
        rw [hh] at h
        cases h
        simp [ih hh]

theorem touch_fst_self (a : Agent) (i : Info) (t : Nat) :
    ((a.touch i t).1).self = a.self := by
  unfold Agent.touch
  cases touchList i t a.peers <;> rfl

theorem touch_pairwise {a : Agent} (i : Info) (t : Nat)
    (h : a.peers.Pairwise fun r s => r.info.addr ≠ s.info.addr) :
    ((a.touch i t).1).peers.Pairwise fun r s => r.info.addr ≠ s.info.addr := by
  unfold Agent.touch
  cases hh : touchList i t a.peers with
  | some qs =>
    have hmap := touchList_some_addrs hh
    have h1 : ((a.peers.map fun r => r.info.addr).Pairwise fun x y => x ≠ y) :=
      List.pairwise_map.mpr h
    have h2 : ((qs.map fun r => r.info.addr).Pairwise fun x y => x ≠ y) := by
      rw [hmap]; exact h1
    exact List.pairwise_map.mp h2
  | none =>
    have hnone := touchList_none_iff.mp hh
    simp only [List.pairwise_append]
    refine ⟨h, List.pairwise_singleton _ _, ?_⟩
    intro x hx y hy
    simp only [List.mem_singleton] at hy
    subst hy
    simp only []
    exact fun hcontra => hnone x hx (by rw [hcontra])

theorem touch_avoid {a : Agent} (i : Info) (t : Nat) {x : Addr}
    (h : ∀ r ∈ a.peers, r.info.addr ≠ x) (hi : i.addr ≠ x) :
    ∀ r ∈ ((a.touch i t).1).peers, r.info.addr ≠ x := by
  unfold Agent.touch
  cases hh : touchList i t a.peers with
  | some qs =>
    intro r hr
    have : r.info.addr ∈ qs.map fun r => r.info.addr := List.mem_map_of_mem _ hr
    rw [touchList_some_addrs hh] at this
    rcases List.mem_map.mp this with ⟨r', hr', he⟩
    rw [← he]
    exact h r' hr'
  | none =>
    intro r hr
    rcases List.mem_append.mp hr with hr' | hr'
    · exact h r hr'
    · simp only [List.mem_singleton] at hr'
      subst hr'
      exact hi

theorem detect_fst_self (a : Agent) (t : Nat) : ((a.detect t).1).self = a.self := rfl

theorem detect_addrs (a : Agent) (t : Nat) :
    ((a.detect t).1).peers.map (fun r => r.info.addr) = a.peers.map fun r => r.info.addr := by
  unfold Agent.detect
  simp only [List.map_map]
  apply List.map_congr_left
  intro r _
  simp only [Function.comp_apply]
  unfold detectStep
  split <;> rfl

theorem detect_pairwise {a : Agent} (t : Nat)
    (h : a.peers.Pairwise fun r s => r.info.addr ≠ s.info.addr) :
    ((a.detect t).1).peers.Pairwise fun r s => r.info.addr ≠ s.info.addr := by
  have h2 : (((a.detect t).1).peers.map fun r => r.info.addr).Pairwise fun x y => x ≠ y := by
    rw [detect_addrs]
    exact List.pairwise_map.mpr h
  exact List.pairwise_map.mp h2

theorem detect_avoid {a : Agent} (t : Nat) {x : Addr}
    (h : ∀ r ∈ a.peers, r.info.addr ≠ x) :
    ∀ r ∈ ((a.detect t).1).peers, r.info.addr ≠ x := by
  intro r hr
  have : r.info.addr ∈ ((a.detect t).1).peers.map fun r => r.info.addr :=
    List.mem_map_of_mem _ hr
  rw [detect_addrs] at this
  rcases List.mem_map.mp this with ⟨r', hr', he⟩
  rw [← he]
  exact h r' hr'

theorem touchAcc_fst (t : Nat) (p : Agent × List Event) (i : Info) :
    (touchAcc t p i).1 = (p.1.touch i t).1 := by
  unfold touchAcc
  rcases h : p.1.touch i t with ⟨a2, e⟩
  cases e <;> simp

theorem foldlTouch_fst_self (t : Nat) (l : List Info) (p : Agent × List Event) :
    ((l.foldl (touchAcc t) p).1).self = p.1.self := by
  induction l generalizing p with
  | nil => rfl
  | cons i is ih =>
    rw [List.foldl_cons, ih]
    rw [touchAcc_fst]
    exact touch_fst_self p.1 i t

theorem foldlTouch_pairwise (t : Nat) (l : List Info) (p : Agent × List Event)
    (h : p.1.peers.Pairwise fun r s => r.info.addr ≠ s.info.addr) :
    ((l.foldl (touchAcc t) p).1).peers.Pairwise fun r s => r.info.addr ≠ s.info.addr := by
  induction l generalizing p with
  | nil => exact h
  | cons i is ih =>
    rw [List.foldl_cons]
    apply ih
    rw [touchAcc_fst]
    exact touch_pairwise i t h

theorem foldlTouch_avoid (t : Nat) (l : List Info) (p : Agent × List Event) {x : Addr}
    (h : ∀ r ∈ p.1.peers, r.info.addr ≠ x) (hl : ∀ i ∈ l, i.addr ≠ x) :
    ∀ r ∈ ((l.foldl (touchAcc t) p).1).peers, r.info.addr ≠ x := by
  induction l generalizing p with
  | nil => exact h
  | cons i is ih =>
    rw [List.foldl_cons]
    apply ih
    · rw [touchAcc_fst]
      exact touch_avoid i t h (hl i (List.mem_cons_self i is))
    · exact fun j hj => hl j (List.mem_cons_of_mem i hj)

theorem touch_of_touchList_some {a : Agent} {i : Info} {t : Nat} {ps : List Record}
    (h : touchList i t a.peers = some ps) : a.touch i t = ({ a with peers := ps }, none) := by
  unfold Agent.touch
  rw [h]

theorem touch_of_touchList_none {a : Agent} {i : Info} {t : Nat}
    (h : touchList i t a.peers = none) :
    a.touch i t = ({ a with peers := a.peers ++ [{ info := i, time := t, down := 0 }] },
      some (Event.append { info := i, time := t, down := 0 })) := by
  unfold Agent.touch
  rw [h]

/-! Codec helper lemmas. -/

theorem beBytes_length (w n : Nat) : (beBytes w n).length = w := by
  induction w generalizing n with
  | zero => rfl
  | succ w ih => simp [beBytes, ih]

theorem takeExact_append (xs rest : List Nat) :
    takeExact xs.length (xs ++ rest) = some (xs, rest) := by
  induction xs with
  | nil => rfl
  | cons b bs ih => simp [takeExact, ih]

theorem fromBE_snoc (bs : List Nat) (b : Nat) :
    fromBE (bs ++ [b]) = 256 * fromBE bs + b := by
  unfold fromBE
  rw [List.foldl_append]
  simp [Nat.mul_comm]

theorem fromBE_beBytes {w n : Nat} (h : n < 2 ^ (8 * w)) :
    fromBE (beBytes w n) = n := by
  induction w generalizing n with
  | zero =>
    interval_cases n
    rfl
  | succ w ih =>
    have e : (2 : Nat) ^ (8 * (w + 1)) = 2 ^ (8 * w) * 256 := by
      rw [Nat.mul_succ, pow_add]
      norm_num
    have hdiv : n / 256 < 2 ^ (8 * w) := by
      apply Nat.div_lt_of_lt_mul
      omega
    rw [beBytes, fromBE_snoc, ih hdiv]
    omega

theorem readInfo_append {i : Info} (hwf : i.WF) (rest : List Nat) :
    readInfo (Info.bytes i ++ rest) = some (i, rest) := by
  obtain ⟨h1, h2, h3⟩ := hwf
  have e4 : (2 : Nat) ^ (8 * 4) = 2 ^ 32 := by norm_num
  have e2 : (2 : Nat) ^ (8 * 2) = 2 ^ 16 := by norm_num
  have e8 : (2 : Nat) ^ (8 * 8) = 2 ^ 64 := by norm_num
  have t4 := takeExact_append (beBytes 4 i.addr.host)
    (beBytes 2 i.addr.port ++ (beBytes 8 i.beat ++ rest))
  rw [beBytes_length] at t4
  have t2 := takeExact_append (beBytes 2 i.addr.port) (beBytes 8 i.beat ++ rest)
  rw [beBytes_length] at t2
  have t8 := takeExact_append (beBytes 8 i.beat) rest
  rw [beBytes_length] at t8
  unfold Info.bytes readInfo
  simp only [List.append_assoc, t4, t2, t8, fromBE_beBytes (e4.symm ▸ h1),
    fromBE_beBytes (e2.symm ▸ h2), fromBE_beBytes (e8.symm ▸ h3)]

theorem readInfos_encode {l : List Info} (hwf : ∀ i ∈ l, i.WF) (rest : List Nat) :
    readInfos l.length (encodeInfos l ++ rest) = some (l, rest) := by
  induction l with
  | nil => rfl
  | cons i is ih =>
    show readInfos (is.length + 1) ((Info.bytes i ++ encodeInfos is) ++ rest) = _
    rw [List.append_assoc]
    unfold readInfos
    simp only [readInfo_append (hwf i (List.mem_cons_self i is)),
      ih fun j hj => hwf j (List.mem_cons_of_mem i hj), Option.map_some']

theorem encodeInfos_length (l : List Info) : (encodeInfos l).length = 14 * l.length := by
  induction l with
  | nil => rfl
  | cons i is ih =>
    simp [encodeInfos, Info.bytes, beBytes_length, ih]
    omega

theorem bytesRaw_list_length (l : List Info) :
    (Message.bytesRaw (Message.list l)).length = 5 + 14 * l.length := by
  simp [Message.bytesRaw, beBytes_length, encodeInfos_length]
  omega

/-! Claim theorems. -/

/-- Claim C4: for every constructible message within the 128-byte capacity
ceiling, encoding succeeds and decoding the encoding yields the message back
unchanged, field for field. -/
theorem C4 (m : Message) (hwf : m.WF) (hcap : m.bytesRaw.length < 128) :
    m.bytes = some m.bytesRaw ∧ Message.parse m.bytesRaw = ParseResult.ok m := by
  refine ⟨by unfold Message.bytes; rw [if_pos hcap], ?_⟩
  cases m with
  | ping i =>
    have hi : i.WF := hwf i (by simp [Message.infos])
    show Message.parse (0 :: Info.bytes i) = _
    unfold Message.parse
    have := readInfo_append hi []
    rw [List.append_nil] at this
    simp [this]
  | list l =>
    have hlen : l.length < 2 ^ 32 := by
      rw [bytesRaw_list_length] at hcap
      omega
    have hmod : l.length % 2 ^ 32 = l.length := Nat.mod_eq_of_lt hlen
    show Message.parse (1 :: (beBytes 4 (l.length % 2 ^ 32) ++ encodeInfos l)) = _
    unfold Message.parse
    have t4 := takeExact_append (beBytes 4 (l.length % 2 ^ 32)) (encodeInfos l)
    rw [beBytes_length] at t4
    have e4 : (2 : Nat) ^ (8 * 4) = 2 ^ 32 := by norm_num
    have hc : fromBE (beBytes 4 (l.length % 2 ^ 32)) = l.length := by
      rw [fromBE_beBytes (e4.symm ▸ Nat.mod_lt _ (by norm_num))]
      exact hmod
    have hwf' : ∀ i ∈ l, i.WF := hwf
    have hr := readInfos_encode hwf' []
    rw [List.append_nil] at hr
    norm_num at t4 hc ⊢
    simp only [t4]
    simp only [hc, hr]

/-- Claim C4 witness: a concrete Announce round-trips. -/
theorem C4_witness :
    (Message.ping { addr := { host := 258, port := 5 }, beat := 7 }).WF ∧
    (Message.ping { addr := { host := 258, port := 5 }, beat := 7 }).bytesRaw.length < 128 ∧
    ((Message.ping { addr := { host := 258, port := 5 }, beat := 7 }).bytes =
        some (Message.ping { addr := { host := 258, port := 5 }, beat := 7 }).bytesRaw ∧
      Message.parse (Message.ping { addr := { host := 258, port := 5 }, beat := 7 }).bytesRaw =
        ParseResult.ok (Message.ping { addr := { host := 258, port := 5 }, beat := 7 })) :=
  ⟨by decide, by decide,
    C4 (Message.ping { addr := { host := 258, port := 5 }, beat := 7 }) (by decide) (by decide)⟩

/-- Claim C5: the claim says decode returns an explicit error on every
truncated buffer and never panics; the code panics on truncated buffers (the
bytes crate getters abort on insufficient data), and only the unknown-tag
case yields the explicit None error.  Evaluations at failing inputs: the
empty buffer, a truncated Announce, a List whose declared count exceeds the
remaining payload, and (as claimed) an unknown tag. -/
theorem C5_bug :
    Message.parse [] = ParseResult.panicked ∧
    Message.parse [0, 1, 2] = ParseResult.panicked ∧
    Message.parse [1, 0, 0, 0, 2] = ParseResult.panicked ∧
    Message.parse [7] = ParseResult.unknownTag := by
  decide

/-- Claim C6: the claim says encode fails with an explicit sizing error
beyond the 128-byte ceiling; the code instead hits assert!(vec.len() < 128)
and aborts (modelled as none) on a 9-entry List of 131 bytes, while within
the ceiling (8 entries, 117 bytes; an Announce, 15 bytes) it deterministically
returns the complete encoding. -/
theorem C6_bug :
    (Message.bytesRaw (Message.list
        (List.replicate 9 { addr := { host := 1, port := 1 }, beat := 1 }))).length = 131 ∧
    Message.bytes (Message.list
        (List.replicate 9 { addr := { host := 1, port := 1 }, beat := 1 })) = none ∧
    Message.bytes (Message.list
        (List.replicate 8 { addr := { host := 1, port := 1 }, beat := 1 })) =
      some (Message.bytesRaw (Message.list
        (List.replicate 8 { addr := { host := 1, port := 1 }, beat := 1 }))) ∧
    Message.bytes (Message.ping { addr := { host := 1, port := 1 }, beat := 1 }) =
      some (Message.bytesRaw (Message.ping { addr := { host := 1, port := 1 }, beat := 1 })) := by
  decide

/-- Claim C1: touch on an untracked address inserts a fresh record (down = 0)
and produces exactly one Append event; touch on a tracked address updates the
record (beat, time, down = 0) if and only if the incoming beat is strictly
greater or equal to zero, and otherwise changes nothing and produces no
event. -/
theorem C1 :
    (∀ (a : Agent) (i : Info) (now : Nat),
      (∀ r ∈ a.peers, r.info.addr ≠ i.addr) →
      a.touch i now =
        ({ a with peers := a.peers ++ [{ info := i, time := now, down := 0 }] },
          some (Event.append { info := i, time := now, down := 0 }))) ∧
    (∀ (a : Agent) (i : Info) (now : Nat) (p1 : List Record) (r : Record) (p2 : List Record),
      a.peers = p1 ++ r :: p2 →
      (∀ x ∈ p1, x.info.addr ≠ i.addr) →
      r.info.addr = i.addr →
      ((i.beat > r.info.beat ∨ i.beat = 0) →
        a.touch i now =
          ({ a with peers :=
              p1 ++ { info := { r.info with beat := i.beat }, time := now, down := 0 } :: p2 },
            none)) ∧
      (¬(i.beat > r.info.beat ∨ i.beat = 0) → a.touch i now = (a, none))) := by
  constructor
  · intro a i now hall
    exact touch_of_touchList_none (touchList_none_iff.mpr hall)
  · intro a i now p1 r p2 heq hp1 hr
    have hfound : touchList i now a.peers =
        some (p1 ++
          (if i.beat > r.info.beat ∨ i.beat = 0 then
            { info := { r.info with beat := i.beat }, time := now, down := 0 }
          else r) :: p2) := by
      rw [heq]
      exact touchList_found p1 r p2 hp1 hr
    constructor
    · intro hcond
      rw [if_pos hcond] at hfound
      exact touch_of_touchList_some hfound
    · intro hcond
      rw [if_neg hcond, ← heq] at hfound
      rw [touch_of_touchList_some hfound]

/-- Claim C1 witness: inserting an unknown identity appends it with one
Append event, and a stale beat for a tracked identity is a complete no-op. -/
theorem C1_witness :
    ((∀ r ∈ agentW.peers, r.info.addr ≠ (infoW 3 7).addr) ∧
      agentW.touch (infoW 3 7) 50 =
        ({ agentW with peers := agentW.peers ++ [{ info := infoW 3 7, time := 50, down := 0 }] },
          some (Event.append { info := infoW 3 7, time := 50, down := 0 }))) ∧
    (¬((infoW 2 3).beat > (recW 2 100 5).info.beat ∨ (infoW 2 3).beat = 0) ∧
      agentW.touch (infoW 2 3) 50 = (agentW, none)) :=
  ⟨⟨by decide, C1.1 agentW (infoW 3 7) 50 (by decide)⟩,
    ⟨by decide,
      (C1.2 agentW (infoW 2 3) 50 [] (recW 2 100 5) [] rfl (by decide) rfl).2 (by decide)⟩⟩

/-- Claim C9 counterexample: the claim fails for beat 0.  A first touch with
beat 0 at time 10 is accepted (insertion); a second touch with the identical
beat 0 at time 20 is re-accepted by the beat == 0 reset rule and refreshes
lastContactTime, so the state changes. -/
theorem C9_cex :
    ((agentW.touch (infoW 4 0) 10).1.touch (infoW 4 0) 20).1 ≠
      (agentW.touch (infoW 4 0) 10).1 := by
  decide

/-- Claim C9 (amended): for an identity with a non-zero beat, a second touch
with the identical identity, at any later time, changes no field of any
record and produces no event.  (With beat 0 the second call is re-accepted
and refreshes lastContactTime, which is what the counterexample exhibits.) -/
theorem C9_amended (a : Agent) (i : Info) (t1 t2 : Nat) (hb : i.beat ≠ 0) :
    ((a.touch i t1).1).touch i t2 = ((a.touch i t1).1, none) := by
  have hnocond : ∀ b : Nat, ¬(i.beat > i.beat ∨ i.beat = 0) := by
    intro _ h
    rcases h with h | h
    · exact Nat.lt_irrefl _ h
    · exact hb h
  by_cases hc : ∀ r ∈ a.peers, r.info.addr ≠ i.addr
  · have h0 : touchList i t1 a.peers = none := touchList_none_iff.mpr hc
    rw [touch_of_touchList_none h0]
    have h2 : touchList i t2
        (({ a with peers := a.peers ++ [{ info := i, time := t1, down := 0 }] } : Agent).peers) =
        some (a.peers ++ [{ info := i, time := t1, down := 0 }]) := by
      show touchList i t2 (a.peers ++ { info := i, time := t1, down := 0 } :: []) = _
      rw [touchList_found a.peers { info := i, time := t1, down := 0 } [] hc rfl,
        if_neg (hnocond 0)]
    rw [touch_of_touchList_some h2]
  · obtain ⟨p1, r, p2, heq, hp1, hr⟩ := exists_first_match hc
    by_cases hcond : i.beat > r.info.beat ∨ i.beat = 0
    · have h1 : touchList i t1 a.peers =
          some (p1 ++ { info := { r.info with beat := i.beat }, time := t1, down := 0 } :: p2) := by
        rw [heq, touchList_found p1 r p2 hp1 hr, if_pos hcond]
      rw [touch_of_touchList_some h1]
      have h2 : touchList i t2
          (({ a with peers :=
              p1 ++ { info := { r.info with beat := i.beat }, time := t1, down := 0 } :: p2 } :
            Agent).peers) =
          some (p1 ++ { info := { r.info with beat := i.beat }, time := t1, down := 0 } :: p2) := by
        show touchList i t2
            (p1 ++ { info := { r.info with beat := i.beat }, time := t1, down := 0 } :: p2) = _
        rw [touchList_found p1 { info := { r.info with beat := i.beat }, time := t1, down := 0 }
          p2 hp1 hr, if_neg (hnocond 0)]
      rw [touch_of_touchList_some h2]
    · have h1 : touchList i t1 a.peers = some a.peers := by
        rw [heq, touchList_found p1 r p2 hp1 hr, if_neg hcond]
      rw [touch_of_touchList_some h1]
      have h2 : touchList i t2 (({ a with peers := a.peers } : Agent).peers) = some a.peers := by
        show touchList i t2 a.peers = _
        rw [heq, touchList_found p1 r p2 hp1 hr, if_neg hcond]
      rw [touch_of_touchList_some h2]

/-- Claim C9 witness: a concrete second touch with the same non-zero beat is
a no-op producing no event. -/
theorem C9_amended_witness :
    (infoW 3 7).beat ≠ 0 ∧
    ((agentW.touch (infoW 3 7) 50).1).touch (infoW 3 7) 60 =
      ((agentW.touch (infoW 3 7) 50).1, none) :=
  ⟨by decide, C9_amended agentW (infoW 3 7) 50 60 (by decide)⟩

/-- Claim C7 counterexample: for an Announce the host is replaced even when
it is not the sentinel 0, so an identity with non-zero host 5 is changed by
patch. -/
theorem C7_cex :
    Message.patch (Message.ping { addr := { host := 5, port := 1 }, beat := 3 })
        { host := 9, port := 2 } ≠
      Message.ping { addr := { host := 5, port := 1 }, beat := 3 } := by
  decide

/-- Claim C7 (amended): for a List, exactly the entries whose host is the
sentinel 0 get the observed host and all other entries are unchanged (ports
and beats always preserved, order and length preserved); for an Announce the
identity's host is replaced with the observed host unconditionally,
regardless of its value. -/
theorem C7_amended :
    (∀ (i : Info) (a : Addr), ∃ j, Message.patch (Message.ping i) a = Message.ping j ∧
      j.addr.host = a.host ∧ j.addr.port = i.addr.port ∧ j.beat = i.beat) ∧
    (∀ (l : List Info) (a : Addr), ∃ l', Message.patch (Message.list l) a = Message.list l' ∧
      List.Forall₂ (fun i j =>
        j.addr.port = i.addr.port ∧ j.beat = i.beat ∧
        (i.addr.host = 0 → j.addr.host = a.host) ∧
        (i.addr.host ≠ 0 → j = i)) l l') := by
  constructor
  · intro i a
    exact ⟨_, rfl, rfl, rfl, rfl⟩
  · intro l a
    refine ⟨_, rfl, ?_⟩
    induction l with
    | nil => exact List.Forall₂.nil
    | cons i is ih =>
      rw [List.map_cons]
      refine List.Forall₂.cons ?_ ih
      by_cases h : i.addr.host = 0
      · rw [if_pos h]
        exact ⟨rfl, rfl, fun _ => rfl, fun hn => absurd h hn⟩
      · rw [if_neg h]
        exact ⟨rfl, rfl, fun h0 => absurd h0 h, fun _ => rfl⟩

/-- Claim C7 witness: concrete instances of both amended branches. -/
theorem C7_witness :
    (∃ j, Message.patch (Message.ping (infoW 5 3)) (addrW 9) = Message.ping j ∧
      j.addr.host = (addrW 9).host ∧ j.addr.port = (infoW 5 3).addr.port ∧
      j.beat = (infoW 5 3).beat) ∧
    (∃ l', Message.patch (Message.list [{ addr := { host := 0, port := 4 }, beat := 2 },
        infoW 5 3]) (addrW 9) = Message.list l' ∧
      List.Forall₂ (fun i j =>
        j.addr.port = i.addr.port ∧ j.beat = i.beat ∧
        (i.addr.host = 0 → j.addr.host = (addrW 9).host) ∧
        (i.addr.host ≠ 0 → j = i))
        [{ addr := { host := 0, port := 4 }, beat := 2 }, infoW 5 3] l') :=
  ⟨C7_amended.1 (infoW 5 3) (addrW 9),
    C7_amended.2 [{ addr := { host := 0, port := 4 }, beat := 2 }, infoW 5 3] (addrW 9)⟩

/-- Claim C2: under the no-underflow precondition, detect marks down exactly
the not-already-down records whose last contact is at or before
now - (pingCutoff + failCutoff), setting their down field to now and emitting
exactly one Remove event per marked record, in table order; every other
record (in particular every already-down record) is left untouched, so no
record ever moves from Down back to Alive. -/
theorem C2 (a : Agent) (now : Nat)
    (h1 : a.ping_cutoff + a.fail_cutoff ≤ now) (h2 : now < 2 ^ 64) :
    (a.detect now).1.self = a.self ∧
    (a.detect now).1.seeds = a.seeds ∧
    (a.detect now).1.ping_cutoff = a.ping_cutoff ∧
    (a.detect now).1.fail_cutoff = a.fail_cutoff ∧
    (a.detect now).1.peers = (a.peers.map fun r =>
      if !r.is_down && decide (r.time ≤ now - (a.ping_cutoff + a.fail_cutoff)) then
        { r with down := now }
      else r) ∧
    (a.detect now).2 = ((a.peers.filter fun r =>
        !r.is_down && decide (r.time ≤ now - (a.ping_cutoff + a.fail_cutoff))).map
      fun r => Event.remove { r with down := now }) ∧
    ∀ r ∈ a.peers, r.is_down = true → r ∈ (a.detect now).1.peers := by
  have hmod : (a.ping_cutoff + a.fail_cutoff) % 2 ^ 64 = a.ping_cutoff + a.fail_cutoff :=
    Nat.mod_eq_of_lt (lt_of_le_of_lt h1 h2)
  have hsub : sub64 now (a.ping_cutoff + a.fail_cutoff) =
      now - (a.ping_cutoff + a.fail_cutoff) := sub64_of_le h1 h2
  have hfun : detectStep ((a.ping_cutoff + a.fail_cutoff) % 2 ^ 64) now = fun r : Record =>
      if !r.is_down && decide (r.time ≤ now - (a.ping_cutoff + a.fail_cutoff)) then
        ({ r with down := now }, some (Event.remove { r with down := now }))
      else (r, none) := by
    funext r
    unfold detectStep
    rw [hmod, hsub]
  have hpeers : (a.detect now).1.peers = (a.peers.map fun r =>
      if !r.is_down && decide (r.time ≤ now - (a.ping_cutoff + a.fail_cutoff)) then
        { r with down := now }
      else r) := by
    show ((a.peers.map (detectStep ((a.ping_cutoff + a.fail_cutoff) % 2 ^ 64) now)).map
        Prod.fst) = _
    rw [hfun, List.map_map]
    apply List.map_congr_left
    intro r _
    simp only [Function.comp_apply]
    split <;> rfl
  have hevents : (a.detect now).2 = ((a.peers.filter fun r =>
      !r.is_down && decide (r.time ≤ now - (a.ping_cutoff + a.fail_cutoff))).map
    fun r => Event.remove { r with down := now }) := by
    show ((a.peers.map (detectStep ((a.ping_cutoff + a.fail_cutoff) % 2 ^ 64) now)).filterMap
        Prod.snd) = _
    rw [hfun, List.filterMap_map]
    have hsnd : (Prod.snd ∘ fun r : Record =>
        if !r.is_down && decide (r.time ≤ now - (a.ping_cutoff + a.fail_cutoff)) then
          ({ r with down := now }, some (Event.remove { r with down := now }))
        else (r, none)) = fun r : Record =>
        if !r.is_down && decide (r.time ≤ now - (a.ping_cutoff + a.fail_cutoff)) then
          some (Event.remove { r with down := now })
        else none := by
      funext r
      simp only [Function.comp_apply]
      split <;> rfl
    rw [hsnd, filterMap_ite]
  refine ⟨rfl, rfl, rfl, rfl, hpeers, hevents, ?_⟩
  intro r hr hdown
  rw [hpeers]
  refine List.mem_map.mpr ⟨r, hr, ?_⟩
  simp [hdown]

/-- Claim C2 witness: at time 200 the peer last seen at time 100 (cutoffs
10 + 20) is marked down, producing exactly one Remove event. -/
theorem C2_witness :
    agentW.ping_cutoff + agentW.fail_cutoff ≤ 200 ∧ (200 : Nat) < 2 ^ 64 ∧
    (agentW.detect 200).2 = [Event.remove { recW 2 100 5 with down := 200 }] := by
  refine ⟨by decide, by decide, ?_⟩
  rw [(C2 agentW 200 (by decide) (by decide)).2.2.2.2.2.1]
  decide

/-- Claim C10: the cutoff subtractions in detect and gossip are unguarded
u64 subtractions, so both operations agree with exact integer arithmetic
precisely under the preconditions now >= pingCutoff + failCutoff and
now >= pingCutoff; for a smaller now the subtraction wraps around 2 ^ 64, as
the concrete disagreements at now = 5 (cutoffs 10 and 10 + 10) exhibit. -/
theorem C10 :
    (∀ (a : Agent) (now : Nat), a.ping_cutoff + a.fail_cutoff ≤ now → now < 2 ^ 64 →
      a.detect now = a.detectInt now) ∧
    (∀ (a : Agent) (now : Nat), a.ping_cutoff ≤ now → now < 2 ^ 64 →
      a.gossip now = a.gossipInt now) ∧
    agentU.detect 5 ≠ agentU.detectInt 5 ∧
    agentU.gossip 5 ≠ agentU.gossipInt 5 := by
  refine ⟨?_, ?_, by decide, by decide⟩
  · intro a now h1 h2
    have hmod : (a.ping_cutoff + a.fail_cutoff) % 2 ^ 64 = a.ping_cutoff + a.fail_cutoff :=
      Nat.mod_eq_of_lt (lt_of_le_of_lt h1 h2)
    have hstep : detectStep ((a.ping_cutoff + a.fail_cutoff) % 2 ^ 64) now =
        detectStepInt (a.ping_cutoff + a.fail_cutoff) now := by
      funext r
      unfold detectStep detectStepInt
      rw [hmod, sub64_of_le h1 h2]
      have hiff : (r.time ≤ now - (a.ping_cutoff + a.fail_cutoff)) ↔
          ((r.time : Int) ≤ (now : Int) - ((a.ping_cutoff + a.fail_cutoff : Nat) : Int)) := by
        omega
      rw [decide_eq_decide.mpr hiff]
    simp only [Agent.detect, Agent.detectInt]
    rw [hstep]
  · intro a now h1 h2
    have hpred : (fun r : Record => !r.is_down && decide (sub64 now a.ping_cutoff < r.time)) =
        fun r : Record =>
          !r.is_down && decide ((now : Int) - (a.ping_cutoff : Int) < (r.time : Int)) := by
      funext r
      rw [sub64_of_le h1 h2]
      have hiff : (now - a.ping_cutoff < r.time) ↔
          ((now : Int) - (a.ping_cutoff : Int) < (r.time : Int)) := by
        omega
      rw [decide_eq_decide.mpr hiff]
    simp only [Agent.gossip, Agent.gossipInt]
    rw [hpred]

/-- Claim C10 witness: at time 30 (above both cutoffs) the wrapped and exact
computations agree on the concrete agent. -/
theorem C10_witness :
    agentU.ping_cutoff + agentU.fail_cutoff ≤ 30 ∧
    agentU.detect 30 = agentU.detectInt 30 ∧ agentU.gossip 30 = agentU.gossipInt 30 :=
  ⟨by decide, C10.1 agentU 30 (by decide) (by decide), C10.2.1 agentU 30 (by decide) (by decide)⟩

/-- Claim C3: under the no-underflow precondition and the peer-table
invariants (distinct addresses, self not stored), the gossip recipients are
exactly the non-down peers with time > now - pingCutoff, in table order, and
the List built for a recipient never contains the recipient's own identity,
never contains the identity of a down or stale peer record, and consists of
the agent's own identity plus every other member of the fresh view. -/
theorem C3 (a : Agent) (now : Nat)
    (hpc : a.ping_cutoff ≤ now) (h64 : now < 2 ^ 64)
    (hp : a.peers.Pairwise fun r s => r.info.addr ≠ s.info.addr)
    (hs : ∀ r ∈ a.peers, r.info.addr ≠ a.self.info.addr) :
    (a.gossip now).map Prod.fst =
      ((a.peers.filter fun r => !r.is_down && decide (now - a.ping_cutoff < r.time)).map
        fun r => r.info.addr) ∧
    ∀ p ∈ a.gossip now, ∀ L, p.2 = Message.list L →
      (∀ i ∈ L, i.addr ≠ p.1) ∧
      (∀ r ∈ a.peers, (r.is_down = true ∨ r.time ≤ now - a.ping_cutoff) → r.info ∉ L) ∧
      a.self.info ∈ L ∧
      (∀ r ∈ a.peers, (!r.is_down && decide (now - a.ping_cutoff < r.time)) = true →
        r.info.addr ≠ p.1 → r.info ∈ L) ∧
      (∀ i ∈ L, i = a.self.info ∨
        ∃ r ∈ a.peers, (!r.is_down && decide (now - a.ping_cutoff < r.time)) = true ∧
          i = r.info) := by
  have hsub : sub64 now a.ping_cutoff = now - a.ping_cutoff := sub64_of_le hpc h64
  have hg : a.gossip now =
      (a.peers.filter fun r => !r.is_down && decide (now - a.ping_cutoff < r.time)).map
        fun r =>
          (r.info.addr,
            Message.list
              ((((a.peers.filter fun r =>
                    !r.is_down && decide (now - a.ping_cutoff < r.time)) ++ [a.self]).map
                  Record.info).filter fun i => decide (i.addr ≠ r.info.addr))) := by
    simp only [Agent.gossip, hsub]
  constructor
  · rw [hg, List.map_map]
    rfl
  · intro p hp' L hL
    rw [hg] at hp'
    obtain ⟨r, hrP, hpe⟩ := List.mem_map.mp hp'
    have hrPeers : r ∈ a.peers := (List.mem_filter.mp hrP).1
    have h1 : p.1 = r.info.addr := by rw [← hpe]
    have h2 : p.2 = Message.list
        ((((a.peers.filter fun r =>
              !r.is_down && decide (now - a.ping_cutoff < r.time)) ++ [a.self]).map
            Record.info).filter fun i => decide (i.addr ≠ r.info.addr)) := by
      rw [← hpe]
    rw [h2] at hL
    have hLL := (Message.list.inj hL).symm
    subst hLL
    refine ⟨?_, ?_, ?_, ?_, ?_⟩
    · intro i hi
      rw [h1]
      exact of_decide_eq_true (List.mem_filter.mp hi).2
    · intro r' hr' hcond hmem
      have hmm := (List.mem_filter.mp hmem).1
      rw [List.map_append, List.mem_append] at hmm
      rcases hmm with hleft | hright
      · obtain ⟨s, hsF, hse⟩ := List.mem_map.mp hleft
        have hsPeers : s ∈ a.peers := (List.mem_filter.mp hsF).1
        have hsP : (!s.is_down && decide (now - a.ping_cutoff < s.time)) = true :=
          (List.mem_filter.mp hsF).2
        have haddr : s.info.addr = r'.info.addr := congrArg Info.addr hse
        have hsr : s = r' := pairwise_addr_eq hp hsPeers hr' haddr
        subst hsr
        rw [Bool.and_eq_true] at hsP
        rcases hsP with ⟨hnd, hdec⟩
        rcases hcond with hdown | htime
        · rw [hdown] at hnd
          cases hnd
        · have := of_decide_eq_true hdec
          omega
      · have : a.self.info = r'.info := by
          simp only [List.map_cons, List.map_nil, List.mem_singleton] at hright
          exact hright.symm
        exact hs r' hr' (congrArg Info.addr this).symm
    · refine List.mem_filter.mpr ⟨?_, ?_⟩
      · exact List.mem_map_of_mem Record.info
          (List.mem_append_right _ (List.mem_singleton.mpr rfl))
      · exact decide_eq_true (Ne.symm (hs r hrPeers))
    · intro r' hr' hPr' hne
      refine List.mem_filter.mpr ⟨?_, ?_⟩
      · exact List.mem_map_of_mem Record.info
          (List.mem_append_left _ (List.mem_filter.mpr ⟨hr', hPr'⟩))
      · rw [h1] at hne
        exact decide_eq_true hne
    · intro i hi
      have hmm := (List.mem_filter.mp hi).1
      rw [List.map_append, List.mem_append] at hmm
      rcases hmm with hleft | hright
      · obtain ⟨s, hsF, hse⟩ := List.mem_map.mp hleft
        exact Or.inr ⟨s, (List.mem_filter.mp hsF).1, (List.mem_filter.mp hsF).2, hse.symm⟩
      · refine Or.inl ?_
        simp only [List.map_cons, List.map_nil, List.mem_singleton] at hright
        exact hright

/-- Claim C3 witness: at time 105 the only recipient is the fresh peer at
address 2. -/
theorem C3_witness :
    agentW.ping_cutoff ≤ 105 ∧
    (agentW.gossip 105).map Prod.fst =
      ((agentW.peers.filter fun r =>
        !r.is_down && decide (105 - agentW.ping_cutoff < r.time)).map fun r => r.info.addr) :=
  ⟨by decide,
    (C3 agentW 105 (by decide) (by decide) (List.pairwise_singleton _ _) (by decide)).1⟩

/-- Claim C8 counterexample: the self-exclusion half of the claim fails for
mergeInbound with an arbitrary message.  From a freshly constructed agent
(reachable), accepting a Ping that carries the agent's own address inserts a
record at that address into the peer table, because touch never compares the
incoming address against the self record. -/
theorem C8_cex :
    Reach ((Agent.new (recW 1 0 0) [] 1 1).accept (Message.ping (infoW 1 5)) 10).1 ∧
    ¬∀ r ∈ ((Agent.new (recW 1 0 0) [] 1 1).accept (Message.ping (infoW 1 5)) 10).1.peers,
        r.info.addr ≠
          ((Agent.new (recW 1 0 0) [] 1 1).accept
            (Message.ping (infoW 1 5)) 10).1.self.info.addr :=
  ⟨Reach.accept _ _ _ (Reach.init _ _ _ _), by decide⟩

/-- Claim C8 (amended): in every reachable state the peer table holds at
most one record per distinct address; the agent's own address additionally
never appears in the table provided no merged inbound message carries an
identity at the agent's own address (the protocol's own gossip payloads
satisfy this, but the core does not enforce it, as the counterexample
shows). -/
theorem C8_amended :
    (∀ a : Agent, Reach a → a.peers.Pairwise fun r s => r.info.addr ≠ s.info.addr) ∧
    (∀ a : Agent, ReachSafe a →
      (a.peers.Pairwise fun r s => r.info.addr ≠ s.info.addr) ∧
      ∀ r ∈ a.peers, r.info.addr ≠ a.self.info.addr) := by
  constructor
  · intro a h
    induction h with
    | init self seeds pc fc => exact List.Pairwise.nil
    | tick a t _ ih => exact ih
    | accept a m t _ ih =>
      cases m with
      | ping i =>
        show ((touchAcc t (a.detect t) i).1.peers.Pairwise _)
        rw [touchAcc_fst]
        exact touch_pairwise i t (detect_pairwise t ih)
      | list l =>
        exact foldlTouch_pairwise t l (a.detect t) (detect_pairwise t ih)
    | detect a t _ ih => exact detect_pairwise t ih
  · intro a h
    induction h with
    | init self seeds pc fc => exact ⟨List.Pairwise.nil, by simp [Agent.new]⟩
    | tick a t _ ih => exact ⟨ih.1, ih.2⟩
    | accept a m t _ hmsg ih =>
      cases m with
      | ping i =>
        have hself : ((a.accept (Message.ping i) t).1).self = a.self := by
          show (touchAcc t (a.detect t) i).1.self = a.self
          rw [touchAcc_fst, touch_fst_self, detect_fst_self]
        refine ⟨?_, ?_⟩
        · show ((touchAcc t (a.detect t) i).1.peers.Pairwise _)
          rw [touchAcc_fst]
          exact touch_pairwise i t (detect_pairwise t ih.1)
        · rw [hself]
          show ∀ r ∈ (touchAcc t (a.detect t) i).1.peers, _
          rw [touchAcc_fst]
          exact touch_avoid i t (detect_avoid t ih.2)
            (hmsg i (List.mem_singleton.mpr rfl))
      | list l =>
        have hself : ((a.accept (Message.list l) t).1).self = a.self := by
          show (l.foldl (touchAcc t) (a.detect t)).1.self = a.self
          rw [foldlTouch_fst_self, detect_fst_self]
        refine ⟨?_, ?_⟩
        · exact foldlTouch_pairwise t l (a.detect t) (detect_pairwise t ih.1)
        · rw [hself]
          exact foldlTouch_avoid t l (a.detect t) (detect_avoid t ih.2) hmsg
    | detect a t _ ih =>
      exact ⟨detect_pairwise t ih.1, detect_avoid t ih.2⟩

/-- Claim C8 witness: a concrete safe run (accepting a Ping from a foreign
address) keeps the table duplicate-free and self-free. -/
theorem C8_amended_witness :
    ((((Agent.new (recW 1 0 0) [] 1 1).accept (Message.ping (infoW 2 5)) 10).1.peers.Pairwise
        fun r s => r.info.addr ≠ s.info.addr) ∧
      ∀ r ∈ ((Agent.new (recW 1 0 0) [] 1 1).accept (Message.ping (infoW 2 5)) 10).1.peers,
        r.info.addr ≠
          ((Agent.new (recW 1 0 0) [] 1 1).accept
            (Message.ping (infoW 2 5)) 10).1.self.info.addr) :=
  C8_amended.2 _ (ReachSafe.accept _ _ _ (ReachSafe.init _ _ _ _) (by decide))

end GossipPeer
